import Mathlib

/-!
Verification development for the name/selector parsing layer and report
engine of `manageJmsQueues.py`.

The Python source is shallowly embedded: strings are `String`/`List Char`,
Python `re.search` calls are embedded with Python's leftmost-match,
greedy-group backtracking semantics (`.` matches any character except a
newline; a greedy `.*`/`.+` takes the longest feasible extent first), and
the one fallible operation (`java.text.SimpleDateFormat.parse`) is embedded
as an `Except`-valued function so that an uncaught exception corresponds to
an `Except.error` propagating to the caller.
-/

/-- `\d` of the Python pattern: an ASCII decimal digit. -/
def pDig : Char → Bool := fun c => c.isDigit

/-- `.` of the Python pattern: any character except a newline. -/
def pAnyChar : Char → Bool := fun c => c != '\n'

/-- A literal character of the Python pattern. -/
def pCh (a : Char) : Char → Bool := fun c => c == a

/-- The fixed-width part `\d{4}-\d{2}-\d{2}.\d{2}:\d{2}:\d{2}\.\d{3}` of the
first timestamp pattern of `parse_filter` (line 1197 of the source), one
character-predicate per consumed character; its length is 23. -/
def ts23pat : List (Char → Bool) :=
  [pDig, pDig, pDig, pDig, pCh '-', pDig, pDig, pCh '-', pDig, pDig, pAnyChar,
   pDig, pDig, pCh ':', pDig, pDig, pCh ':', pDig, pDig, pCh '.', pDig, pDig, pDig]

/-- `\d{4}-\d{2}-\d{2}.\d{2}:\d{2}:\d{2}`, the fixed-width part of the second
timestamp pattern of `parse_filter` (line 1205); a length-19 prefix of
`ts23pat`. -/
def ts19pat : List (Char → Bool) := ts23pat.take 19

/-- `\d{4}-\d{2}-\d{2}.\d{2}:\d{2}`, the fixed-width part of the third
timestamp pattern of `parse_filter` (line 1213); a length-16 prefix of
`ts23pat`. -/
def ts16pat : List (Char → Bool) := ts23pat.take 16

/-- Whether the leading characters of `cs` satisfy, position by position, the
character predicates of `pat` (so `pat` matches at this point of the input,
with arbitrary text allowed after it). -/
def patMatch : List (Char → Bool) → List Char → Bool
  | [], _ => true
  | _ :: _, [] => false
  | p :: ps, c :: cs => p c && patMatch ps cs

/-- Whether the characters of `s` at positions `[k, i)` are all distinct from
a newline, i.e. whether a greedy `.*` starting at `k` can extend to `i`. -/
def noNLrange (s : List Char) (k i : Nat) : Bool :=
  ((s.drop k).take (i - k)).all (fun c => c != '\n')

/-- All positions `i` at which the fixed-width pattern `pat` can match such
that a `.*` group starting at `k` reaches `i`.  This is the set of candidate
ends for the leading greedy `(.*)` group of the `parse_filter` patterns when
the overall match starts at `k`. -/
def matchEnds (pat : List (Char → Bool)) (s : List Char) (k : Nat) : List Nat :=
  (List.range (s.length + 1)).filter
    (fun i => decide (k ≤ i) && noNLrange s k i && patMatch pat (s.drop i))

/-- Maximum of a list of naturals (0 for the empty list). -/
def maxNatList (l : List Nat) : Nat := l.foldl Nat.max 0

/-- Embedding of `re.search("(.*)[quotes]*(FIXED)", s)` for a fixed-width
tail pattern `FIXED`: Python scans start positions left to right and, at the
first feasible start `k`, maximises the greedy leading group, so the fixed
part matches at the largest feasible position `i`.  (The optional quote
class of the first pattern never captures anything, because its characters
are also matched by the greedy `.*`, which is maximised first.)  Returns
`some (k, i)` where `group(1) = s[k..i)` and `group(2)` starts at `i`. -/
def searchKI (pat : List (Char → Bool)) (s : List Char) : Option (Nat × Nat) :=
  match (List.range (s.length + 1)).find? (fun k => !(matchEnds pat s k).isEmpty) with
  | some k => some (k, maxNatList (matchEnds pat s k))
  | none => none

/-- Decimal value of a digit character. -/
def dVal (c : Char) : Nat := c.toNat - 48

/-- Day count since 1970-01-01 of the first day of month `m` of year `y`
(proleptic Gregorian calendar, `m` between 1 and 12). -/
def daysFromCivil (y m : Int) : Int :=
  let yAdj := y - (if m ≤ 2 then 1 else 0)
  let era := yAdj.fdiv 400
  let yoe := yAdj - era * 400
  let mp := (m + 9).fmod 12
  let doy := (153 * mp + 2).fdiv 5
  let doe := yoe * 365 + yoe.fdiv 4 - yoe.fdiv 100 + doy
  era * 146097 + doe - 719468

/-- Epoch milliseconds of the wall-clock fields
`y`-`mo`-`d` `h`:`mi`:`se`.`ms` under `java.util.GregorianCalendar`'s
default lenient interpretation: out-of-range fields are not rejected but
normalised by plain arithmetic (month 13 is January of the next year, day 32
of January is February 1, and so on). -/
def lenientWallMillis (y mo d h mi se ms : Nat) : Int :=
  let m0 : Int := (mo : Int) - 1
  let yNorm := (y : Int) + m0.fdiv 12
  let mNorm := m0.fmod 12 + 1
  let days := daysFromCivil yNorm mNorm + ((d : Int) - 1)
  days * 86400000 + (h : Int) * 3600000 + (mi : Int) * 60000 + (se : Int) * 1000 + (ms : Int)

/-- Whether a character sequence fits the `SimpleDateFormat` pattern
`yyyy-MM-dd HH:mm:ss.SSS` (literal separators exact — in particular a space
between date and time — and digits in the numeric fields; field values are
not range-checked, as the formatter is in its default lenient mode). -/
def sdfShapeOk (s : List Char) : Bool :=
  let c : Nat → Char := fun i => s.getD i '\n'
  decide (s.length = 23) &&
    ((c 0).isDigit && (c 1).isDigit && (c 2).isDigit && (c 3).isDigit &&
      (c 5).isDigit && (c 6).isDigit && (c 8).isDigit && (c 9).isDigit &&
      (c 11).isDigit && (c 12).isDigit && (c 14).isDigit && (c 15).isDigit &&
      (c 17).isDigit && (c 18).isDigit && (c 20).isDigit && (c 21).isDigit &&
      (c 22).isDigit) &&
    ((c 4 == '-') && (c 7 == '-') && (c 10 == ' ') && (c 13 == ':') &&
      (c 16 == ':') && (c 19 == '.'))

/-- Wall-clock epoch value of a `yyyy-MM-dd HH:mm:ss.SSS` character
sequence (fields read positionally, then combined leniently). -/
def sdfWallMillis (s : List Char) : Int :=
  let c : Nat → Char := fun i => s.getD i '\n'
  lenientWallMillis
    (dVal (c 0) * 1000 + dVal (c 1) * 100 + dVal (c 2) * 10 + dVal (c 3))
    (dVal (c 5) * 10 + dVal (c 6))
    (dVal (c 8) * 10 + dVal (c 9))
    (dVal (c 11) * 10 + dVal (c 12))
    (dVal (c 14) * 10 + dVal (c 15))
    (dVal (c 17) * 10 + dVal (c 18))
    (dVal (c 20) * 100 + dVal (c 21) * 10 + dVal (c 22))

/-- Embedding of the source function `get_milliseconds` (lines 1222-1231).
The Java collaborator `java.text.SimpleDateFormat("yyyy-MM-dd HH:mm:ss.SSS")`
is modelled from its documented behaviour at the shapes this program feeds
it (23-character strings produced by the `parse_filter` regexes, plus the
appended `".000"`/`":00.000"` suffixes): parsing succeeds exactly when the
literal pattern characters match (`sdfShapeOk` — in particular the separator
between date and time must be a space, while the regex admitted any
character there), and numeric fields are interpreted leniently (no
calendar-range validation, see `lenientWallMillis`); on a shape mismatch
`parse` throws `ParseException`, embedded as `Except.error ()`, which the
source never catches.  The ambient local time zone is passed explicitly as
its UTC offset `tz` in milliseconds, so the returned epoch value is the
wall-clock value minus `tz`. -/
def get_milliseconds (tz : Int) (timestamp_str : String) : Except Unit Int :=
  if sdfShapeOk timestamp_str.data then
    Except.ok (sdfWallMillis timestamp_str.data - tz)
  else Except.error ()

/-- Embedding of the source function `parse_filter` (lines 1190-1219): three
`re.search` attempts in order (timestamp with milliseconds, with seconds,
with minutes only); on the first successful search the function returns
`group(1) + str(get_milliseconds(group(2) [+ suffix]))` — everything after
the matched literal is discarded — and if no pattern matches the input is
returned unchanged.  An exception from `get_milliseconds` propagates. -/
def parse_filter (tz : Int) (msg_filter : String) : Except Unit String :=
  let s := msg_filter.data
  match searchKI ts23pat s with
  | some (k, i) =>
    (get_milliseconds tz (String.mk ((s.drop i).take 23))).map
      (fun m => String.mk ((s.drop k).take (i - k)) ++ toString m)
  | none =>
  match searchKI ts19pat s with
  | some (k, i) =>
    (get_milliseconds tz (String.mk ((s.drop i).take 19) ++ ".000")).map
      (fun m => String.mk ((s.drop k).take (i - k)) ++ toString m)
  | none =>
  match searchKI ts16pat s with
  | some (k, i) =>
    (get_milliseconds tz (String.mk ((s.drop i).take 16) ++ ":00.000")).map
      (fun m => String.mk ((s.drop k).take (i - k)) ++ toString m)
  | none => Except.ok msg_filter

/-- A string contains no newline character. -/
def noNewlines (p : String) : Bool := p.data.all (fun c => c != '\n')

/-- The string is exactly a 23-character `YYYY-MM-DD HH:MM:SS.mmm` literal:
it matches the first `parse_filter` pattern and its date/time separator is
the space required by the `SimpleDateFormat` pattern. -/
def tsShape (L : String) : Bool :=
  decide (L.data.length = 23) && patMatch ts23pat L.data && (L.data.getD 10 '\n' == ' ')

/-- The numeric fields of a 23-character timestamp literal lie in the usual
calendar ranges (month 1-12, day 1-31, hour 0-23, minute and second 0-59). -/
def fieldsInRange (L : String) : Bool :=
  let f := fun (a len : Nat) => ((L.data.drop a).take len).foldl (fun acc c => 10 * acc + dVal c) 0
  let mo := f 5 2
  let d := f 8 2
  let h := f 11 2
  let mi := f 14 2
  let se := f 17 2
  (((((((decide (1 ≤ mo) && decide (mo ≤ 12)) && decide (1 ≤ d)) && decide (d ≤ 31)) &&
    decide (h ≤ 23)) && decide (mi ≤ 59)) && decide (se ≤ 59)))

/-- Some position of `s` begins a substring matching the fixed-width
pattern `pat`. -/
def hasTsMatch (pat : List (Char → Bool)) (s : String) : Bool :=
  (List.range (s.data.length + 1)).any (fun i => patMatch pat (s.data.drop i))

instance exceptDecEq {E A : Type} [DecidableEq E] [DecidableEq A] : DecidableEq (Except E A) :=
  fun x y =>
    match x, y with
    | Except.ok u, Except.ok v =>
      if h : u = v then isTrue (congrArg Except.ok h)
      else isFalse (fun hc => h (Except.ok.inj hc))
    | Except.error u, Except.error v =>
      if h : u = v then isTrue (congrArg Except.error h)
      else isFalse (fun hc => h (Except.error.inj hc))
    | Except.ok _, Except.error _ => isFalse (fun hc => Except.noConfusion hc)
    | Except.error _, Except.ok _ => isFalse (fun hc => Except.noConfusion hc)

/-! ## Destination name resolver -/

/-- Python `str.split(sep)` for a one-character separator: the list of
(possibly empty) segments between occurrences of `sep`. -/
def splitOnChar (sep : Char) : List Char → List (List Char)
  | [] => [[]]
  | c :: cs =>
    match splitOnChar sep cs with
    | h :: t => if c == sep then [] :: h :: t else (c :: h) :: t
    | [] => [[c]]

/-- Embedding of the source function `get_queue_name` (lines 1066-1083):
split on `@` if present and take the last segment, else split on `!` and
take the last segment, else keep the raw name; then, if the result still
contains `/`, take the last `/`-separated segment.  (`getLastD` never sees
its default: `splitOnChar` always returns a non-empty list, as Python
`split` always returns a non-empty list.) -/
def get_queue_name (name : String) : String :=
  let queue_name :=
    if name.data.contains '@' then (splitOnChar '@' name.data).getLastD []
    else if name.data.contains '!' then (splitOnChar '!' name.data).getLastD []
    else name.data
  let queue_name :=
    if queue_name.contains '/' then (splitOnChar '/' queue_name).getLastD []
    else queue_name
  String.mk queue_name

/-- Modelled from the spec (§4.3, `shortName`): splits on `@` if present and
takes the last segment; else splits on `!` and takes the last segment; else
returns the raw string unchanged; if the result still contains `/`, takes
the last `/`-delimited segment.  Spec-side definition for the refinement
claim about `get_queue_name`. -/
def resolve_short_name_spec (raw : String) : String :=
  let seg :=
    if raw.data.contains '@' then (splitOnChar '@' raw.data).getLastD []
    else if raw.data.contains '!' then (splitOnChar '!' raw.data).getLastD []
    else raw.data
  String.mk (if seg.contains '/' then (splitOnChar '/' seg).getLastD [] else seg)

/-- First `some` value of `f` over a list, scanning left to right (the
backtracking order of a regex engine trying candidates in sequence). -/
def firstSome {A B : Type} (f : A → Option B) : List A → Option B
  | [] => none
  | x :: xs =>
    match f x with
    | some y => some y
    | none => firstSome f xs

/-- End of the newline-free run of `s` that starts at `k`: the largest
position a greedy `.`-group starting at `k` can reach. -/
def runEnd (s : List Char) (k : Nat) : Nat :=
  k + ((s.drop k).takeWhile (fun c => c != '\n')).length

/-- Embedding of matching `(.+)c₁(.+)c₂...(.+)` (the `parse_destination_name`
patterns) from position `k`: for each separator, the greedy `(.+)` before it
is tried longest first, so candidate separator positions are scanned from
the right; the final `(.+)` greedily needs at least one character before the
newline-free run ends.  Returns the chosen separator positions. -/
def chainMatchFrom (s : List Char) : List Char → Nat → Option (List Nat)
  | [], k => if k < runEnd s k then some [] else none
  | c :: rest, k =>
    firstSome (fun a =>
        if (decide (k + 1 ≤ a) && decide (a ≤ runEnd s k)) && (s.getD a '\n' == c) then
          (chainMatchFrom s rest (a + 1)).map (fun l => a :: l)
        else none)
      ((List.range s.length).reverse)

/-- Embedding of `re.search` for a chain pattern `(.+)c₁(.+)...(.+)`:
leftmost feasible start position wins. -/
def chainSearch (s : List Char) (seps : List Char) : Option (Nat × List Nat) :=
  firstSome (fun k => (chainMatchFrom s seps k).map (fun l => (k, l))) (List.range s.length)

/-- The dictionary built by `parse_destination_name`; keys that a branch
does not set are `none` (`jndi_name` is set by every branch). -/
structure DestInfo where
  jms_module : Option String
  jms_server : Option String
  server : Option String
  jndi_name : String
deriving DecidableEq

/-- Characters of `s` at positions `[a, b)`. -/
def sub (s : List Char) (a b : Nat) : List Char := (s.drop a).take (b - a)

/-- Embedding of the source function `parse_destination_name`
(lines 1086-1122): try `(.+)!(.+)@(.+)@(.+)`, then `(.+)!(.+)@(.+)`, then
`(.+)!(.+)`, each via `re.search`; the first match wins and fills the
corresponding keys; otherwise only `jndi_name` is set, to the raw name.
(The `| _ =>` fallthroughs on a successful search with the wrong number of
separator positions are unreachable: `chainMatchFrom` returns one position
per separator.) -/
def parse_destination_name (name : String) : DestInfo :=
  let s := name.data
  match chainSearch s ['!', '@', '@'] with
  | some (k, [a1, a2, a3]) =>
    { jms_module := some (String.mk (sub s k a1)),
      jms_server := some (String.mk (sub s (a1 + 1) a2)),
      server := some (String.mk (sub s (a2 + 1) a3)),
      jndi_name := String.mk (sub s (a3 + 1) (runEnd s (a3 + 1))) }
  | _ =>
  match chainSearch s ['!', '@'] with
  | some (k, [a1, a2]) =>
    { jms_module := some (String.mk (sub s k a1)),
      jms_server := some (String.mk (sub s (a1 + 1) a2)),
      server := none,
      jndi_name := String.mk (sub s (a2 + 1) (runEnd s (a2 + 1))) }
  | _ =>
  match chainSearch s ['!'] with
  | some (k, [a1]) =>
    { jms_module := some (String.mk (sub s k a1)),
      jms_server := none,
      server := none,
      jndi_name := String.mk (sub s (a1 + 1) (runEnd s (a1 + 1))) }
  | _ =>
    { jms_module := none, jms_server := none, server := none, jndi_name := name }

/-! ## Connection URL parser -/

/-- `\w` of the Python pattern: an ASCII letter, digit or underscore. -/
def wordChar (c : Char) : Bool := c.isAlphanum || c == '_'

/-- Length of the word-character run of `s` starting at `k` (greedy `\w+`). -/
def wordRun (s : List Char) (k : Nat) : Nat := ((s.drop k).takeWhile wordChar).length

/-- Length of the digit run of `cs` starting at `j` (greedy `\d+`). -/
def digitRun (cs : List Char) (j : Nat) : Nat := ((cs.drop j).takeWhile Char.isDigit).length

/-- Feasible split point for `(.+):(\d+)` at `i`: a non-empty newline-free
host before a `:` followed by at least one digit. -/
def hpCond (cs : List Char) (i : Nat) : Bool :=
  ((decide (1 ≤ i) && decide (i ≤ runEnd cs 0)) && (cs.getD i '\n' == ':')) &&
    (cs.getD (i + 1) '\n').isDigit

/-- Feasible split point for `(.+):(\d+)/(\w*)` at `i`: as `hpCond`, with the
greedy digit run after the `:` followed immediately by a `/` (a shorter
digit group cannot help, since the next character would be a digit). -/
def hppCond (cs : List Char) (i : Nat) : Bool :=
  (((decide (1 ≤ i) && decide (i ≤ runEnd cs 0)) && (cs.getD i '\n' == ':')) &&
    decide (1 ≤ digitRun cs (i + 1))) &&
    (cs.getD (i + 1 + digitRun cs (i + 1)) '\n' == '/')

/-- Feasible split point for `(.+)/(\w+)` at `i`: a non-empty newline-free
host before a `/` followed by a word character. -/
def hpathCond (cs : List Char) (i : Nat) : Bool :=
  ((decide (1 ≤ i) && decide (i ≤ runEnd cs 0)) && (cs.getD i '\n' == '/')) &&
    wordChar (cs.getD (i + 1) '\n')

/-- Greedy split of `cs` as `(.+):(\d+)`: the `(.+)` group is maximised, so
the split is at the last `:` that is inside the leading newline-free run and
followed by a digit; the port is the digit run after it. -/
def hostPortSplit (cs : List Char) : Option (List Char × List Char) :=
  match firstSome (fun i => if hpCond cs i then some i else none)
    ((List.range cs.length).reverse) with
  | some i => some (cs.take i, (cs.drop (i + 1)).takeWhile Char.isDigit)
  | none => none

/-- Greedy split of `cs` as `(.+):(\d+)/(\w*)`: the `(.+)` group is
maximised; the `\d+` group, being greedy over digits, forces the `/` to sit
at the first non-digit after the `:`. -/
def hostPortPathSplit (cs : List Char) : Option (List Char × List Char × List Char) :=
  match firstSome (fun i => if hppCond cs i then some i else none)
    ((List.range cs.length).reverse) with
  | some i =>
    let dr := digitRun cs (i + 1)
    some (cs.take i, (cs.drop (i + 1)).take dr,
      ((cs.drop (i + 1 + dr + 1)).takeWhile wordChar))
  | none => none

/-- Greedy split of `cs` as `(.+)/(\w+)`: split at the last `/` inside the
leading newline-free run that is followed by a word character. -/
def hostPathSplit (cs : List Char) : Option (List Char × List Char) :=
  match firstSome (fun i => if hpathCond cs i then some i else none)
    ((List.range cs.length).reverse) with
  | some i => some (cs.take i, (cs.drop (i + 1)).takeWhile wordChar)
  | none => none

/-- Match of `(\w+)://REST` at position `k`: a non-empty word run followed
by the literal `://` (a shorter `\w+` group cannot help, since the next
character after a shorter group is a word character, not `:`), with `REST`
handled by the given splitter on the remainder. -/
def protoAt {A : Type} (split : List Char → Option A) (s : List Char) (k : Nat) :
    Option (List Char × A) :=
  let w := wordRun s k
  if w = 0 then none
  else if (s.drop (k + w)).take 3 = [':', '/', '/'] then
    match split (s.drop (k + w + 3)) with
    | some r => some ((s.drop k).take w, r)
    | none => none
  else none

/-- The dictionary built by `parse_url`; absent keys are `none`. -/
structure UrlInfo where
  protocol : Option String
  hostname : Option String
  port : Option String
  path : Option String
deriving DecidableEq

/-- Embedding of the source function `parse_url` (lines 1125-1154): try
`(\w+)://(.+):(\d+)`, then `(\w+)://(.+):(\d+)/(\w*)`, then
`(\w+)://(.+)/(\w+)` via `re.search` (leftmost start position first), and
fall back to treating the whole input as the hostname. -/
def parse_url (url : String) : UrlInfo :=
  let s := url.data
  match firstSome (protoAt hostPortSplit s) (List.range s.length) with
  | some (proto, host, port) =>
    { protocol := some (String.mk proto), hostname := some (String.mk host),
      port := some (String.mk port), path := none }
  | none =>
  match firstSome (protoAt hostPortPathSplit s) (List.range s.length) with
  | some (proto, host, port, path) =>
    { protocol := some (String.mk proto), hostname := some (String.mk host),
      port := some (String.mk port), path := some (String.mk path) }
  | none =>
  match firstSome (protoAt hostPathSplit s) (List.range s.length) with
  | some (proto, host, path) =>
    { protocol := some (String.mk proto), hostname := some (String.mk host),
      port := none, path := some (String.mk path) }
  | none =>
    { protocol := none, hostname := some url, port := none, path := none }

/-! ## Report engine -/

/-- A report cell: heterogeneous broker data, an integer (Python
`int`/`long`) or a string. -/
inductive Value where
  | int : Int → Value
  | str : String → Value
deriving DecidableEq

/-- Python `str(item)` on a report cell. -/
def valueStr : Value → String
  | Value.int n => toString n
  | Value.str s => s

/-- Embedding of the source function `is_all_int` (lines 1157-1165): true
iff every element is an integer. -/
def is_all_int : List Value → Bool
  | [] => true
  | Value.int _ :: t => is_all_int t
  | Value.str _ :: _ => false

/-- Python `zip(*rows)`: the list of columns, truncated to the shortest row
(`zip()` of no rows is empty).  The default `d` is never read: column
indices stay below every row length. -/
def zipCols {A : Type} (d : A) (rows : List (List A)) : List (List A) :=
  match rows with
  | [] => []
  | r0 :: rest =>
    let n := (rest.map List.length).foldl Nat.min r0.length
    (List.range n).map (fun i => (r0 :: rest).map (fun r => r.getD i d))

/-- The `numeric_columns` list of `create_report` (lines 896-900): indices
of the columns whose values are all integers. -/
def numericColumns (columns : List (List Value)) : List Nat :=
  (List.range columns.length).filter (fun i => is_all_int (columns.getD i []))

/-- The stringification pass of `create_report` (lines 903-906). -/
def stringifyRows (report : List (List Value)) : List (List String) :=
  report.map (fun row => row.map valueStr)

/-- Python byte-string `<`: strict lexicographic comparison of the
character sequences by character code. -/
def clLt : List Char → List Char → Bool
  | [], [] => false
  | [], _ :: _ => true
  | _ :: _, [] => false
  | a :: as, b :: bs =>
    if a < b then true
    else if b < a then false
    else clLt as bs

/-- Python list-of-strings `<=` as used by `list.sort()` on report rows:
elementwise comparison, first difference decides, shorter prefix first. -/
def rowLe : List String → List String → Bool
  | [], _ => true
  | _ :: _, [] => false
  | a :: as, b :: bs =>
    if clLt a.data b.data then true
    else if clLt b.data a.data then false
    else rowLe as bs

/-- The row order of `report_str.sort()` as a relation. -/
def rowRel (a b : List String) : Prop := rowLe a b = true

instance : DecidableRel rowRel :=
  fun a b => inferInstanceAs (Decidable (rowLe a b = true))

/-- The optional sorting pass of `create_report` (lines 908-909):
`report_str.sort()` produces the unique permutation of the rows that is
sorted for the total order `rowRel` (rows that compare equal are identical,
so which stable order the library sort uses is unobservable). -/
def sortRows (is_sorted : Bool) (rows : List (List String)) : List (List String) :=
  if is_sorted then List.insertionSort rowRel rows else rows

/-- Python truthiness of a report cell (`not totals_row[0]` is true for the
int `0` and for the empty string). -/
def pyFalsy : Value → Bool
  | Value.int n => n == 0
  | Value.str s => s == ""

/-- Python `sum` over a column of integers.  (The `Value.str` case is
unreachable at the call site: `create_report` only sums columns in
`numericColumns`.) -/
def sumInts (l : List Value) : Int :=
  l.foldl (fun acc v => match v with | Value.int n => acc + n | Value.str _ => acc) 0

/-- The totals-row construction of `create_report` (lines 911-923): numeric
columns get the column sum, other columns the empty string; then, if the
first cell is falsy (empty, or an integer 0), it is replaced by the label
`TOTAL (<row count>)` where the row count is `len(columns[0])`; finally all
cells are stringified.  When there are no columns at all `totals_row[0]`
raises `IndexError`, embedded as `Except.error ()`. -/
def totalsRowStrings (columns : List (List Value)) (numeric_columns : List Nat) :
    Except Unit (List String) :=
  let totals_row := (List.range columns.length).map (fun i =>
    if numeric_columns.contains i then Value.int (sumInts (columns.getD i []))
    else Value.str "")
  match totals_row with
  | [] => Except.error ()
  | v :: rest =>
    let row :=
      if pyFalsy v then
        Value.str ("TOTAL (" ++ toString (columns.headD []).length ++ ")") :: rest
      else v :: rest
    Except.ok (row.map valueStr)

/-- Python `str.rjust(w)`: left-pad with spaces to width `w`. -/
def rjust (s : String) (w : Nat) : String :=
  String.mk (List.replicate (w - s.data.length) ' ') ++ s

/-- Python `str.ljust(w)`: right-pad with spaces to width `w`. -/
def ljust (s : String) (w : Nat) : String :=
  s ++ String.mk (List.replicate (w - s.data.length) ' ')

/-- Result of `create_report`: either the early-return "no data" signal
(the source logs `The search returned no results.` and returns), or the
sequence of lines printed via `log_report` (title first). -/
inductive ReportResult where
  | noData : ReportResult
  | table : List String → ReportResult
deriving DecidableEq

/-- Embedding of the source function `create_report` (lines 883-960).
Faithful staging: empty-report early return; numeric-column detection on
the original typed values; stringification; optional sort; optional totals
row (whose `IndexError` on a zero-column report propagates); headers,
thick/thin rules placed as by the source's `insert`/`append` calls; and
per-column `rjust`/`ljust` adjustment with single-space joining (the
truncating `zip(row, col_widths)` is `List.zip`).  The printing side effect
is represented by the returned list of lines, title first. -/
def create_report (report_title : String) (report : List (List Value))
    (col_names : List String) (is_sorted : Bool) (is_total : Bool) :
    Except Unit ReportResult :=
  match report with
  | [] => Except.ok ReportResult.noData
  | _ :: _ =>
    let columns := zipCols (Value.str "") report
    let numeric_columns := numericColumns columns
    let report_str := sortRows is_sorted (stringifyRows report)
    match (if is_total then (totalsRowStrings columns numeric_columns).map some
           else Except.ok none) with
    | Except.error e => Except.error e
    | Except.ok ototal =>
      let table := col_names :: (report_str ++ (match ototal with
        | some t => [t]
        | none => []))
      let col_widths := (zipCols "" table).map
        (fun col => col.foldl (fun m c => Nat.max m c.data.length) 0)
      let underline_thick := col_widths.map (fun w => String.mk (List.replicate w '='))
      let underline_thin := col_widths.map (fun w => String.mk (List.replicate w '-'))
      let mid := match ototal with
        | some t => report_str ++ [underline_thin, t]
        | none => report_str
      let all_rows := underline_thick :: col_names :: underline_thin ::
        (mid ++ [underline_thick])
      let adjustRow := fun (row : List String) =>
        String.intercalate " " ((row.zip col_widths).enum.map (fun p =>
          if numeric_columns.contains p.1 then rjust p.2.1 p.2.2 else ljust p.2.1 p.2.2))
      Except.ok (ReportResult.table (report_title :: all_rows.map adjustRow))

/-! ## Helper lemmas about the embedded regex search -/

theorem patMatch_length_le : ∀ {pat : List (Char → Bool)} {cs : List Char},
    patMatch pat cs = true → pat.length ≤ cs.length := by
  intro pat
  induction pat with
  | nil => intro cs _; simp
  | cons p ps ih =>
    intro cs h
    cases cs with
    | nil => simp [patMatch] at h
    | cons c cs2 =>
      simp only [patMatch, Bool.and_eq_true] at h
      have := ih h.2
      simp only [List.length_cons]
      omega

theorem natMax_assoc (u v w : Nat) : Nat.max (Nat.max u v) w = Nat.max u (Nat.max v w) := by
  simp only [Nat.max_def]
  split_ifs <;> omega

theorem foldl_max_init (l : List Nat) : ∀ a : Nat,
    l.foldl Nat.max a = Nat.max a (l.foldl Nat.max 0) := by
  induction l with
  | nil => intro a; simp
  | cons x xs ih =>
    intro a
    simp only [List.foldl]
    have hz : Nat.max 0 x = x := by simp [Nat.max_def]
    rw [ih (Nat.max a x), ih (Nat.max 0 x), hz, natMax_assoc]

theorem maxNatList_le {m : Nat} : ∀ {l : List Nat}, (∀ x ∈ l, x ≤ m) → maxNatList l ≤ m := by
  intro l
  induction l with
  | nil => intro _; simp [maxNatList]
  | cons x xs ih =>
    intro h
    unfold maxNatList
    simp only [List.foldl]
    have hz : Nat.max 0 x = x := by simp [Nat.max_def]
    rw [foldl_max_init, hz]
    have h1 : x ≤ m := h x (List.mem_cons_self _ _)
    have h2 : maxNatList xs ≤ m := ih (fun y hy => h y (List.mem_cons_of_mem _ hy))
    exact Nat.max_le.mpr ⟨h1, h2⟩

theorem maxNatList_eq {l : List Nat} {m : Nat} (hm : m ∈ l) (hall : ∀ x ∈ l, x ≤ m) :
    maxNatList l = m := by
  induction l with
  | nil => cases hm
  | cons x xs ih =>
    unfold maxNatList
    simp only [List.foldl]
    have hz : Nat.max 0 x = x := by simp [Nat.max_def]
    rw [foldl_max_init, hz]
    rcases List.mem_cons.mp hm with rfl | hmem
    · have hle : maxNatList xs ≤ m :=
        maxNatList_le (fun y hy => hall y (List.mem_cons_of_mem _ hy))
      exact Nat.max_eq_left hle
    · have hx : x ≤ m := hall x (List.mem_cons_self _ _)
      have hxs : maxNatList xs = m := ih hmem (fun y hy => hall y (List.mem_cons_of_mem _ hy))
      rw [show xs.foldl Nat.max 0 = maxNatList xs from rfl, hxs]
      exact Nat.max_eq_right hx

/-- On an input `pre ++ L` with a newline-free prefix `pre` and a tail `L`
exactly matching the fixed-width pattern, the embedded `re.search` matches at
start 0 with the fixed part at position `pre.length` (no feasible match end
lies further right, because the pattern needs `pat.length` characters). -/
theorem searchKI_append (pat : List (Char → Bool)) (pre L : List Char)
    (hpre : pre.all (fun c => c != '\n') = true)
    (hlen : L.length = pat.length) (hL : patMatch pat L = true) :
    searchKI pat (pre ++ L) = some (0, pre.length) := by
  have hslen : (pre ++ L).length = pre.length + pat.length := by
    simp [List.length_append, hlen]
  have hdropL : (pre ++ L).drop pre.length = L := List.drop_left pre L
  have hQ : (decide (0 ≤ pre.length) && noNLrange (pre ++ L) 0 pre.length &&
      patMatch pat ((pre ++ L).drop pre.length)) = true := by
    have h1 : noNLrange (pre ++ L) 0 pre.length = true := by
      unfold noNLrange
      simp only [List.drop_zero, Nat.sub_zero]
      rw [List.take_left]
      exact hpre
    rw [hdropL]
    simp [h1, hL]
  have hmem : pre.length ∈ matchEnds pat (pre ++ L) 0 := by
    unfold matchEnds
    refine List.mem_filter.mpr ⟨List.mem_range.mpr ?_, hQ⟩
    omega
  have hub : ∀ i ∈ matchEnds pat (pre ++ L) 0, i ≤ pre.length := by
    intro i hi
    unfold matchEnds at hi
    have h5 := List.mem_range.mp (List.mem_filter.mp hi).1
    have h2 := (List.mem_filter.mp hi).2
    simp only [Bool.and_eq_true] at h2
    have h4 := patMatch_length_le h2.2
    rw [List.length_drop, hslen] at h4
    rw [hslen] at h5
    omega
  have hmax : maxNatList (matchEnds pat (pre ++ L) 0) = pre.length := maxNatList_eq hmem hub
  have hne : ((matchEnds pat (pre ++ L) 0).isEmpty = false) := by
    cases h : matchEnds pat (pre ++ L) 0 with
    | nil => rw [h] at hmem; cases hmem
    | cons a t => simp [List.isEmpty]
  unfold searchKI
  have hfind : (List.range ((pre ++ L).length + 1)).find?
      (fun k => !(matchEnds pat (pre ++ L) k).isEmpty) = some 0 := by
    rw [List.range_succ_eq_map]
    apply List.find?_cons_of_pos
    simp [hne]
  rw [hfind]
  show (some (0, maxNatList (matchEnds pat (pre ++ L) 0)) : Option (Nat × Nat)) =
    some (0, pre.length)
  rw [hmax]

theorem patMatch_getD : ∀ {pat : List (Char → Bool)} {cs : List Char},
    patMatch pat cs = true → ∀ i, i < pat.length → ∀ d,
    (pat.getD i (fun _ => true)) (cs.getD i d) = true := by
  intro pat
  induction pat with
  | nil => intro cs _ i hi; exact absurd hi (by simp)
  | cons p ps ih =>
    intro cs h i hi d
    cases cs with
    | nil => simp [patMatch] at h
    | cons c cs2 =>
      simp only [patMatch, Bool.and_eq_true] at h
      cases i with
      | zero => simpa using h.1
      | succ j =>
        have := ih h.2 j (by simpa using hi) d
        simpa using this

theorem pDig_ne_nl : ∀ c, pDig c = true → (c != '\n') = true := by
  intro c h
  simp only [pDig] at h
  simp only [bne_iff_ne]
  intro hEq
  subst hEq
  exact absurd h (by decide)

theorem pCh_ne_nl (a : Char) (ha : (a != '\n') = true) :
    ∀ c, pCh a c = true → (c != '\n') = true := by
  intro c h
  simp only [pCh, beq_iff_eq] at h
  subst h
  exact ha

theorem ts23pat_ne_nl : ∀ p ∈ ts23pat, ∀ c, p c = true → (c != '\n') = true := by
  intro p hp
  fin_cases hp <;>
    first
      | exact pDig_ne_nl
      | exact pCh_ne_nl _ (by decide)
      | exact fun c hc => hc

theorem patMatch_all_ne {pat : List (Char → Bool)}
    (hpat : ∀ p ∈ pat, ∀ c, p c = true → (c != '\n') = true) :
    ∀ {cs : List Char}, patMatch pat cs = true →
    cs.length = pat.length → cs.all (fun c => c != '\n') = true := by
  induction pat with
  | nil =>
    intro cs _ hlen
    have : cs = [] := List.length_eq_zero.mp (by simpa using hlen)
    subst this
    rfl
  | cons p ps ih =>
    intro cs h hlen
    cases cs with
    | nil => simp [patMatch] at h
    | cons c cs2 =>
      simp only [patMatch, Bool.and_eq_true] at h
      simp only [List.all_cons, Bool.and_eq_true]
      refine ⟨hpat p (List.mem_cons_self _ _) c h.1, ?_⟩
      exact ih (fun q hq => hpat q (List.mem_cons_of_mem _ hq)) h.2 (by simpa using hlen)

/-- A string of the exact timestamp shape contains no newline (every
position of `ts23pat` only accepts non-newline characters). -/
theorem tsShape_noNewlines {L : String} (h : tsShape L = true) :
    noNewlines L = true := by
  simp only [tsShape, Bool.and_eq_true, decide_eq_true_eq] at h
  exact patMatch_all_ne ts23pat_ne_nl h.1.2 (by rw [h.1.1]; rfl)

/-- On a shape-correct literal the modelled `SimpleDateFormat.parse` always
succeeds, whatever the numeric field values are (lenient mode). -/
theorem get_milliseconds_ok_of_tsShape {L : String} (h : tsShape L = true) (tz : Int) :
    ∃ m : Int, get_milliseconds tz L = Except.ok m := by
  simp only [tsShape, Bool.and_eq_true, decide_eq_true_eq] at h
  obtain ⟨⟨hlen, hpm⟩, hsp⟩ := h
  have hpos := fun (i : Nat) (hi : i < 23) =>
    patMatch_getD hpm i (by simpa [ts23pat] using hi) '\n'
  have h0 : (L.data.getD 0 '\n').isDigit = true := hpos 0 (by omega)
  have h1 : (L.data.getD 1 '\n').isDigit = true := hpos 1 (by omega)
  have h2 : (L.data.getD 2 '\n').isDigit = true := hpos 2 (by omega)
  have h3 : (L.data.getD 3 '\n').isDigit = true := hpos 3 (by omega)
  have h4 : (L.data.getD 4 '\n' == '-') = true := hpos 4 (by omega)
  have h5 : (L.data.getD 5 '\n').isDigit = true := hpos 5 (by omega)
  have h6 : (L.data.getD 6 '\n').isDigit = true := hpos 6 (by omega)
  have h7 : (L.data.getD 7 '\n' == '-') = true := hpos 7 (by omega)
  have h8 : (L.data.getD 8 '\n').isDigit = true := hpos 8 (by omega)
  have h9 : (L.data.getD 9 '\n').isDigit = true := hpos 9 (by omega)
  have h11 : (L.data.getD 11 '\n').isDigit = true := hpos 11 (by omega)
  have h12 : (L.data.getD 12 '\n').isDigit = true := hpos 12 (by omega)
  have h13 : (L.data.getD 13 '\n' == ':') = true := hpos 13 (by omega)
  have h14 : (L.data.getD 14 '\n').isDigit = true := hpos 14 (by omega)
  have h15 : (L.data.getD 15 '\n').isDigit = true := hpos 15 (by omega)
  have h16 : (L.data.getD 16 '\n' == ':') = true := hpos 16 (by omega)
  have h17 : (L.data.getD 17 '\n').isDigit = true := hpos 17 (by omega)
  have h18 : (L.data.getD 18 '\n').isDigit = true := hpos 18 (by omega)
  have h19 : (L.data.getD 19 '\n' == '.') = true := hpos 19 (by omega)
  have h20 : (L.data.getD 20 '\n').isDigit = true := hpos 20 (by omega)
  have h21 : (L.data.getD 21 '\n').isDigit = true := hpos 21 (by omega)
  have h22 : (L.data.getD 22 '\n').isDigit = true := hpos 22 (by omega)
  have hcond : sdfShapeOk L.data = true := by
    unfold sdfShapeOk
    dsimp only
    rw [hlen]
    simp only [h0, h1, h2, h3, h4, h5, h6, h7, h8, h9, hsp, h11, h12,
      h13, h14, h15, h16, h17, h18, h19, h20, h21, h22]
    simp
  refine ⟨sdfWallMillis L.data - tz, ?_⟩
  unfold get_milliseconds
  rw [if_pos hcond]

/-- Core rewriting lemma: on an input `pre ++ L` where `pre` is newline-free
and `L` is exactly a full `YYYY-MM-DD HH:MM:SS.mmm` literal, `parse_filter`
matches its first pattern with `group(1) = pre` and `group(2) = L` and
returns `pre + str(get_milliseconds(L))`. -/
theorem parse_filter_append_lit (tz : Int) (pre L : String) (m : Int)
    (hpre : noNewlines pre = true) (hL : tsShape L = true)
    (hm : get_milliseconds tz L = Except.ok m) :
    parse_filter tz (pre ++ L) = Except.ok (pre ++ toString m) := by
  have hparts : (L.data.length = 23 ∧ patMatch ts23pat L.data = true) ∧
      (L.data.getD 10 '\n' == ' ') = true := by
    simpa [tsShape, Bool.and_eq_true, decide_eq_true_eq] using hL
  obtain ⟨⟨hlen, hpm⟩, _⟩ := hparts
  have hsearch : searchKI ts23pat (pre.data ++ L.data) = some (0, pre.data.length) :=
    searchKI_append ts23pat pre.data L.data hpre (by rw [hlen]; rfl) hpm
  have e1 : ((pre.data ++ L.data).drop pre.data.length).take 23 = L.data := by
    rw [List.drop_left, ← hlen, List.take_length]
  have e2 : ((pre.data ++ L.data).drop 0).take (pre.data.length - 0) = pre.data := by
    simp [List.take_left]
  unfold parse_filter
  simp only [String.data_append]
  rw [hsearch]
  dsimp only
  rw [e1, e2, show String.mk L.data = L from rfl, show String.mk pre.data = pre from rfl, hm]
  rfl

/-- If no position of `s` matches the fixed-width pattern, the embedded
`re.search` fails. -/
theorem searchKI_eq_none {pat : List (Char → Bool)} {s : String}
    (h : hasTsMatch pat s = false) : searchKI pat s.data = none := by
  unfold searchKI
  have hfind : (List.range (s.data.length + 1)).find?
      (fun k => !(matchEnds pat s.data k).isEmpty) = none := by
    rw [List.find?_eq_none]
    intro k _
    have hempty : matchEnds pat s.data k = [] := by
      unfold matchEnds
      rw [List.filter_eq_nil_iff]
      intro i hi hQ
      simp only [Bool.and_eq_true] at hQ
      have hone : patMatch pat (s.data.drop i) = true := hQ.2
      have hcontra : hasTsMatch pat s = true := by
        unfold hasTsMatch
        rw [List.any_eq_true]
        exact ⟨i, hi, hone⟩
      rw [h] at hcontra
      cases hcontra
    simp [hempty]
  rw [hfind]

/-! ## Claim theorems: filter normalization -/

/-- **C1**: for every newline-free prefix `p` and every valid timestamp
literal `L` of the form `YYYY-MM-DD HH:MM:SS.mmm`, `parse_filter (p ++ L)`
returns `p` followed by the decimal string of the epoch-millisecond value
of `L` computed (by `get_milliseconds`) in the local time zone `tz`: the
literal substring is replaced by its millisecond integer form and the
prefix is preserved. -/
theorem parse_filter_normalizes_valid_literal (tz : Int) (p L : String) (m : Int)
    (hp : noNewlines p = true) (hL : tsShape L = true) (_hv : fieldsInRange L = true)
    (hm : get_milliseconds tz L = Except.ok m) :
    parse_filter tz (p ++ L) = Except.ok (p ++ toString m) :=
  parse_filter_append_lit tz p L m hp hL hm

/-- Witness for the C1 theorem at `p = "X "`,
`L = "2018-09-05 12:22:33.123"`, `tz = 0`. -/
theorem parse_filter_normalizes_valid_literal_witness :
    noNewlines "X " = true ∧ tsShape "2018-09-05 12:22:33.123" = true ∧
    fieldsInRange "2018-09-05 12:22:33.123" = true ∧
    get_milliseconds 0 "2018-09-05 12:22:33.123" = Except.ok 1536150153123 ∧
    parse_filter 0 ("X " ++ "2018-09-05 12:22:33.123") =
      Except.ok ("X " ++ toString (1536150153123 : Int)) :=
  ⟨by decide, by decide, by decide, by decide,
    parse_filter_normalizes_valid_literal 0 "X " "2018-09-05 12:22:33.123" 1536150153123
      (by decide) (by decide) (by decide) (by decide)⟩

/-- **C2 counterexample**: the calendar-invalid literal
`2018-13-32 12:22:33.123` (month 13, day 32) does *not* make the
normalization fail: `parse_filter` returns a numeric rewrite of the bogus
literal (SimpleDateFormat's default lenient mode rolls the fields over to
2019-02-01), contradicting the claim that a `MalformedTimestamp` error
propagates and no numeric rewrite is returned. -/
theorem parse_filter_bogus_literal_counterexample :
    fieldsInRange "2018-13-32 12:22:33.123" = false ∧
    tsShape "2018-13-32 12:22:33.123" = true ∧
    parse_filter 0 "JMSTimestamp > 2018-13-32 12:22:33.123" =
      Except.ok "JMSTimestamp > 1549023753123" :=
  ⟨by decide, by decide, by decide⟩

/-- **C2 (amended)**: a timestamp-shaped literal whose numeric fields are
out of calendar range is *not* rejected: the modelled
`SimpleDateFormat.parse` is lenient, so `get_milliseconds` succeeds and
`parse_filter` returns the numeric rewrite of the bogus literal.  (An error
is raised — and propagates, uncaught — only when the literal fails the
format pattern itself, e.g. a non-space separator between date and time;
see `get_milliseconds`.) -/
theorem parse_filter_lenient_bogus_literal (tz : Int) (p L : String)
    (hp : noNewlines p = true) (hL : tsShape L = true)
    (_hbad : fieldsInRange L = false) :
    ∃ m : Int, get_milliseconds tz L = Except.ok m ∧
      parse_filter tz (p ++ L) = Except.ok (p ++ toString m) := by
  obtain ⟨m, hm⟩ := get_milliseconds_ok_of_tsShape hL tz
  exact ⟨m, hm, parse_filter_append_lit tz p L m hp hL hm⟩

/-- Witness for the amended C2 theorem at `p = "JMSTimestamp > "`,
`L = "2018-13-32 12:22:33.123"`, `tz = 0`. -/
theorem parse_filter_lenient_bogus_literal_witness :
    noNewlines "JMSTimestamp > " = true ∧ tsShape "2018-13-32 12:22:33.123" = true ∧
    fieldsInRange "2018-13-32 12:22:33.123" = false ∧
    (∃ m : Int, get_milliseconds 0 "2018-13-32 12:22:33.123" = Except.ok m ∧
      parse_filter 0 ("JMSTimestamp > " ++ "2018-13-32 12:22:33.123") =
        Except.ok ("JMSTimestamp > " ++ toString m)) :=
  ⟨by decide, by decide, by decide,
    parse_filter_lenient_bogus_literal 0 "JMSTimestamp > " "2018-13-32 12:22:33.123"
      (by decide) (by decide) (by decide)⟩

/-- **C3 counterexample**: on a filter containing two timestamp-shaped
substrings, `parse_filter` rewrites the *second* (last) one and leaves the
first untouched — the opposite of the claim.  The first conjunct computes
the actual output; the second states it differs from the output the claim
predicts (first literal rewritten to `1514862245678`, second untouched). -/
theorem parse_filter_two_timestamps_counterexample :
    parse_filter 0 "A 2018-01-02 03:04:05.678 B 2019-01-02 03:04:05.678" =
      Except.ok "A 2018-01-02 03:04:05.678 B 1546398245678" ∧
    "A 2018-01-02 03:04:05.678 B 1546398245678" ≠
      "A 1514862245678 B 2019-01-02 03:04:05.678" :=
  ⟨by decide, by decide⟩

/-- **C3 (amended)**: in a filter `p ++ L1 ++ mid ++ L2` containing two
full-format timestamp literals, the greedy leading `(.*)` of the first
`parse_filter` pattern selects the *rightmost* match, so only the last
literal `L2` is rewritten; the first literal `L1` (and everything else
before `L2`) is preserved verbatim. -/
theorem parse_filter_rewrites_last_timestamp (tz : Int) (p mid L1 L2 : String) (m : Int)
    (hp : noNewlines p = true) (hmid : noNewlines mid = true)
    (h1 : tsShape L1 = true) (h2 : tsShape L2 = true)
    (hm : get_milliseconds tz L2 = Except.ok m) :
    parse_filter tz (p ++ L1 ++ mid ++ L2) =
      Except.ok (p ++ L1 ++ mid ++ toString m) := by
  have hL1nl : noNewlines L1 = true := tsShape_noNewlines h1
  have hpre : noNewlines (p ++ L1 ++ mid) = true := by
    simp only [noNewlines, String.data_append, List.all_append, Bool.and_eq_true]
    exact ⟨⟨hp, hL1nl⟩, hmid⟩
  exact parse_filter_append_lit tz (p ++ L1 ++ mid) L2 m hpre h2 hm

/-- Witness for the amended C3 theorem with two concrete literals. -/
theorem parse_filter_rewrites_last_timestamp_witness :
    noNewlines "A " = true ∧ noNewlines " B " = true ∧
    tsShape "2018-01-02 03:04:05.678" = true ∧
    tsShape "2019-01-02 03:04:05.678" = true ∧
    get_milliseconds 0 "2019-01-02 03:04:05.678" = Except.ok 1546398245678 ∧
    parse_filter 0 ("A " ++ "2018-01-02 03:04:05.678" ++ " B " ++ "2019-01-02 03:04:05.678") =
      Except.ok ("A " ++ "2018-01-02 03:04:05.678" ++ " B " ++ toString (1546398245678 : Int)) :=
  ⟨by decide, by decide, by decide, by decide, by decide,
    parse_filter_rewrites_last_timestamp 0 "A " " B "
      "2018-01-02 03:04:05.678" "2019-01-02 03:04:05.678" 1546398245678
      (by decide) (by decide) (by decide) (by decide) (by decide)⟩

/-- **C4**: a string containing no substring matching any of the three
accepted timestamp formats is returned unchanged by `parse_filter`
(for any local time zone). -/
theorem parse_filter_no_timestamp_unchanged (tz : Int) (s : String)
    (h23 : hasTsMatch ts23pat s = false) (h19 : hasTsMatch ts19pat s = false)
    (h16 : hasTsMatch ts16pat s = false) :
    parse_filter tz s = Except.ok s := by
  unfold parse_filter
  dsimp only
  rw [searchKI_eq_none h23, searchKI_eq_none h19, searchKI_eq_none h16]

/-- Witness for the C4 theorem on a purely numeric filter condition. -/
theorem parse_filter_no_timestamp_unchanged_witness :
    hasTsMatch ts23pat "JMSPriority = 4" = false ∧
    hasTsMatch ts19pat "JMSPriority = 4" = false ∧
    hasTsMatch ts16pat "JMSPriority = 4" = false ∧
    parse_filter 7 "JMSPriority = 4" = Except.ok "JMSPriority = 4" :=
  ⟨by decide, by decide, by decide,
    parse_filter_no_timestamp_unchanged 7 "JMSPriority = 4"
      (by decide) (by decide) (by decide)⟩

/-! ## Claim theorems: destination names -/

/-- **C5**: `get_queue_name` computes the short logical name exactly as the
spec describes (`resolve_short_name_spec` is a transliteration of the
spec's `shortName` algorithm), and the four reference round-trips hold. -/
theorem get_queue_name_matches_spec :
    (∀ raw : String, get_queue_name raw = resolve_short_name_spec raw) ∧
    get_queue_name "Mod!Srv@Host@Q1" = "Q1" ∧
    get_queue_name "Mod!Q2" = "Q2" ∧
    get_queue_name "Q3" = "Q3" ∧
    get_queue_name "Mod!Srv@a/b/Q4" = "Q4" :=
  ⟨fun _ => rfl, by decide, by decide, by decide, by decide⟩

/-- **C6**: `parse_destination_name` tries its four positional shapes from
most to least specific and the first match wins, so every result exhibits
one of exactly four key-presence patterns (unmatched optional keys absent,
the logical name always present by construction), and the two reference
identifiers decompose as specified. -/
theorem parse_destination_name_shapes :
    (∀ name : String,
      ((parse_destination_name name).jms_module.isSome = true ∧
        (parse_destination_name name).jms_server.isSome = true ∧
        (parse_destination_name name).server.isSome = true) ∨
      ((parse_destination_name name).jms_module.isSome = true ∧
        (parse_destination_name name).jms_server.isSome = true ∧
        (parse_destination_name name).server = none) ∨
      ((parse_destination_name name).jms_module.isSome = true ∧
        (parse_destination_name name).jms_server = none ∧
        (parse_destination_name name).server = none) ∨
      ((parse_destination_name name).jms_module = none ∧
        (parse_destination_name name).jms_server = none ∧
        (parse_destination_name name).server = none)) ∧
    parse_destination_name "Mod!Srv@Host@Q1" =
      { jms_module := some "Mod", jms_server := some "Srv", server := some "Host",
        jndi_name := "Q1" } ∧
    parse_destination_name "Q5" =
      { jms_module := none, jms_server := none, server := none, jndi_name := "Q5" } := by
  refine ⟨?_, by decide, by decide⟩
  intro name
  unfold parse_destination_name
  dsimp only
  split <;> (try split) <;> (try split) <;> simp

/-! ## Claim theorems: report engine -/

/-- **C9**: with an empty row sequence `create_report` is a no-op that
signals "no data" to the caller: no table, header, rule or totals lines are
produced, for every combination of the sorting and totalling flags (and
any title and column names). -/
theorem create_report_empty_no_data :
    ∀ (title : String) (col_names : List String) (is_sorted is_total : Bool),
      create_report title [] col_names is_sorted is_total =
        Except.ok ReportResult.noData :=
  fun _ _ _ _ => rfl

theorem clLt_conn : ∀ {a b : List Char}, clLt a b = false → clLt b a = false → a = b := by
  intro a
  induction a with
  | nil =>
    intro b h1 _
    cases b with
    | nil => rfl
    | cons c cs => simp [clLt] at h1
  | cons c cs ih =>
    intro b h1 h2
    cases b with
    | nil => simp [clLt] at h2
    | cons d ds =>
      simp only [clLt] at h1 h2
      by_cases hcd : c < d
      · simp [hcd] at h1
      · by_cases hdc : d < c
        · simp [hdc, hcd] at h2
        · have hEq : c = d := le_antisymm (not_lt.mp hdc) (not_lt.mp hcd)
          subst hEq
          simp [hcd] at h1 h2
          exact congrArg (List.cons c) (ih h1 h2)

theorem clLt_trans : ∀ {a b c : List Char},
    clLt a b = true → clLt b c = true → clLt a c = true := by
  intro a
  induction a with
  | nil =>
    intro b c h1 h2
    cases b with
    | nil => simp [clLt] at h1
    | cons y ys =>
      cases c with
      | nil => simp [clLt] at h2
      | cons z zs => rfl
  | cons x xs ih =>
    intro b c h1 h2
    cases b with
    | nil => simp [clLt] at h1
    | cons y ys =>
      cases c with
      | nil => simp [clLt] at h2
      | cons z zs =>
        simp only [clLt] at h1 h2 ⊢
        by_cases hxy : x < y
        · by_cases hyz : y < z
          · have hxz : x < z := lt_trans hxy hyz
            simp [hxz]
          · by_cases hzy : z < y
            · simp [hyz, hzy] at h2
            · have hEq : y = z := le_antisymm (not_lt.mp hzy) (not_lt.mp hyz)
              subst hEq
              simp [hxy]
        · by_cases hyx : y < x
          · simp [hxy, hyx] at h1
          · have hEq : x = y := le_antisymm (not_lt.mp hyx) (not_lt.mp hxy)
            subst hEq
            simp [hxy] at h1
            by_cases hxz : x < z
            · simp [hxz]
            · by_cases hzx : z < x
              · simp [hxz, hzx] at h2
              · have hEq2 : x = z := le_antisymm (not_lt.mp hzx) (not_lt.mp hxz)
                subst hEq2
                simp [hxz] at h2
                simp [hxz]
                exact ih h1 h2

theorem str_eq_of_clLt {a b : String} (h1 : clLt a.data b.data = false)
    (h2 : clLt b.data a.data = false) : a = b := by
  have h3 : a.data = b.data := clLt_conn h1 h2
  cases a
  cases b
  simp only at h3
  rw [h3]

theorem rowLe_total : ∀ a b : List String, rowLe a b = true ∨ rowLe b a = true := by
  intro a
  induction a with
  | nil => intro b; left; rfl
  | cons x xs ih =>
    intro b
    cases b with
    | nil => right; rfl
    | cons y ys =>
      simp only [rowLe]
      by_cases hxy : clLt x.data y.data = true
      · left; simp [hxy]
      · by_cases hyx : clLt y.data x.data = true
        · right; simp [hyx]
        · simp only [Bool.not_eq_true] at hxy hyx
          rcases ih ys with hle | hle
          · left; simp [hxy, hyx, hle]
          · right; simp [hxy, hyx, hle]

theorem rowLe_trans : ∀ {a b c : List String},
    rowLe a b = true → rowLe b c = true → rowLe a c = true := by
  intro a
  induction a with
  | nil => intro b c _ _; rfl
  | cons x xs ih =>
    intro b c h1 h2
    cases b with
    | nil => simp [rowLe] at h1
    | cons y ys =>
      cases c with
      | nil => simp [rowLe] at h2
      | cons z zs =>
        simp only [rowLe] at h1 h2 ⊢
        by_cases hxy : clLt x.data y.data = true
        · by_cases hyz : clLt y.data z.data = true
          · have hxz : clLt x.data z.data = true := clLt_trans hxy hyz
            simp [hxz]
          · by_cases hzy : clLt z.data y.data = true
            · simp [hyz, hzy] at h2
            · simp only [Bool.not_eq_true] at hyz hzy
              have hEq : y = z := str_eq_of_clLt hyz hzy
              subst hEq
              simp [hxy]
        · by_cases hyx : clLt y.data x.data = true
          · simp [hxy, hyx] at h1
          · simp only [Bool.not_eq_true] at hxy hyx
            have hEq : x = y := str_eq_of_clLt hxy hyx
            subst hEq
            simp [hxy] at h1
            by_cases hxz : clLt x.data z.data = true
            · simp [hxz]
            · by_cases hzx : clLt z.data x.data = true
              · simp [hxz, hzx] at h2
              · simp only [Bool.not_eq_true] at hxz hzx
                have hEq2 : x = z := str_eq_of_clLt hxz hzx
                subst hEq2
                simp [hxz] at h2
                simp [hxz]
                exact ih h1 h2

/-- **C8**: when sorting is requested, `create_report` orders the data rows
by full-tuple lexicographic comparison of the stringified values (the sort
stage receives the rows only after `stringifyRows`): the sorted stage is
`rowRel`-sorted and a permutation of the stringified rows, and numeric
columns therefore sort as text — the row stringifying to `"10"` comes
before the one stringifying to `"9"`. -/
theorem create_report_sorts_stringified_rows :
    (∀ report : List (List Value),
      List.Sorted rowRel (sortRows true (stringifyRows report)) ∧
      (sortRows true (stringifyRows report)).Perm (stringifyRows report)) ∧
    sortRows true (stringifyRows [[Value.int 9], [Value.int 10]]) = [["10"], ["9"]] := by
  refine ⟨fun report => ⟨?_, ?_⟩, by decide⟩
  · show List.Sorted rowRel (List.insertionSort rowRel (stringifyRows report))
    exact @List.sorted_insertionSort _ rowRel _ ⟨rowLe_total⟩ ⟨fun _ _ _ => rowLe_trans⟩
      (stringifyRows report)
  · show (List.insertionSort rowRel (stringifyRows report)).Perm (stringifyRows report)
    exact List.perm_insertionSort rowRel _

theorem foldl_min_const (c : Nat) : ∀ ls : List Nat,
    (∀ x ∈ ls, x = c) → ls.foldl Nat.min c = c := by
  intro ls
  induction ls with
  | nil => intro _; rfl
  | cons x xs ih =>
    intro h
    simp only [List.foldl]
    rw [h x (List.mem_cons_self _ _), show Nat.min c c = c by simp [Nat.min_def]]
    exact ih (fun y hy => h y (List.mem_cons_of_mem _ hy))

/-- On a non-empty rectangular row set, `zip(*rows)` yields one column per
common index, each column listing that cell of every row. -/
theorem zipCols_rect {A : Type} (d : A) (report : List (List A)) (c : Nat)
    (hne : report ≠ []) (hrect : ∀ row ∈ report, row.length = c) :
    zipCols d report =
      (List.range c).map (fun i => report.map (fun r => r.getD i d)) := by
  cases report with
  | nil => exact absurd rfl hne
  | cons r0 rest =>
    unfold zipCols
    dsimp only
    have hn : (rest.map List.length).foldl Nat.min r0.length = c := by
      rw [hrect r0 (List.mem_cons_self _ _)]
      apply foldl_min_const
      intro x hx
      obtain ⟨row, hrow, rfl⟩ := List.mem_map.mp hx
      exact hrect row (List.mem_cons_of_mem _ hrow)
    rw [hn]

theorem getD_range_map {A : Type} (f : Nat → A) (n i : Nat) (d : A) (hi : i < n) :
    ((List.range n).map f).getD i d = f i := by
  rw [List.getD_eq_getElem?_getD, List.getElem?_map, List.getElem?_range hi]
  rfl

theorem getD_map_lt {A B : Type} (f : A → B) (l : List A) (i : Nat) (d : A) (dB : B)
    (hi : i < l.length) : (l.map f).getD i dB = f (l.getD i d) := by
  rw [List.getD_eq_getElem?_getD, List.getElem?_map, List.getElem?_eq_getElem hi,
    List.getD_eq_getElem?_getD, List.getElem?_eq_getElem hi]
  rfl

/-- Membership of a column index in `numeric_columns` is exactly the
`is_all_int` classification of that column. -/
theorem numericColumns_contains {cols : List (List Value)} {i : Nat}
    (hi : i < cols.length) :
    (numericColumns cols).contains i = is_all_int (cols.getD i []) := by
  unfold numericColumns
  cases h : is_all_int (cols.getD i []) with
  | true =>
    have hmem : i ∈ (List.range cols.length).filter (fun j => is_all_int (cols.getD j [])) :=
      List.mem_filter.mpr ⟨List.mem_range.mpr hi, h⟩
    exact List.elem_iff.mpr hmem
  | false =>
    cases hcont : ((List.range cols.length).filter
        (fun j => is_all_int (cols.getD j []))).contains i with
    | false => rfl
    | true =>
      have hmem := List.elem_iff.mp hcont
      have := (List.mem_filter.mp hmem).2
      rw [h] at this
      cases this

/-- Content of the totals row built by `create_report` for any column set
with at least one column: every listed numeric column carries the column
sum, other columns are blank, and the first cell carries the
`TOTAL (<row count>)` label exactly when it would otherwise be falsy (blank
or a zero sum). -/
theorem totalsRowStrings_ok (columns : List (List Value)) (nc : List Nat) (c2 : Nat)
    (hlen : columns.length = c2 + 1) :
    ∃ t : List String,
      totalsRowStrings columns nc = Except.ok t ∧
      t.length = c2 + 1 ∧
      (∀ i, 0 < i → i < c2 + 1 →
        t.getD i "" =
          (if nc.contains i then toString (sumInts (columns.getD i [])) else "")) ∧
      t.getD 0 "" =
        (if nc.contains 0 = true ∧ sumInts (columns.getD 0 []) ≠ 0 then
          toString (sumInts (columns.getD 0 []))
        else "TOTAL (" ++ toString (columns.headD []).length ++ ")") := by
  unfold totalsRowStrings
  dsimp only
  rw [hlen, List.range_succ_eq_map, List.map_cons]
  set g : Nat → Value := fun i =>
    if nc.contains i then Value.int (sumInts (columns.getD i [])) else Value.str ""
    with hg
  set rest : List Value := ((List.range c2).map Nat.succ).map g with hrest
  have hrestlen : rest.length = c2 := by simp [hrest]
  have hrestget : ∀ j, j < c2 → rest.getD j (Value.str "") = g (j + 1) := by
    intro j hj
    rw [hrest, List.map_map]
    have := getD_range_map (g ∘ Nat.succ) c2 j (Value.str "") hj
    simpa using this
  have hgetd : ∀ v : Value, ∀ j, j < c2 →
      ((v :: rest).map valueStr).getD (j + 1) "" = valueStr (g (j + 1)) := by
    intro v j hj
    rw [List.map_cons, List.getD_cons_succ,
      getD_map_lt valueStr rest j (Value.str "") "" (by omega), hrestget j hj]
  have hvalg : ∀ j, j < c2 → valueStr (g (j + 1)) =
      (if nc.contains (j + 1) = true then
        toString (sumInts (columns.getD (j + 1) [])) else "") := by
    intro j _
    rw [hg]
    dsimp only
    cases hnc : nc.contains (j + 1)
    · rfl
    · rfl
  show ∃ t,
      Except.ok ((if pyFalsy (g 0) then
          Value.str ("TOTAL (" ++ toString (columns.headD []).length ++ ")") :: rest
        else g 0 :: rest).map valueStr) = Except.ok t ∧
      t.length = c2 + 1 ∧ _ ∧ _
  cases hf : pyFalsy (g 0)
  · rw [if_neg (by decide : ¬ (false = true))]
    refine ⟨_, rfl, ?_, ?_, ?_⟩
    · simp [hrestlen]
    · intro i h0 hi
      obtain ⟨j, rfl⟩ : ∃ j, i = j + 1 := ⟨i - 1, by omega⟩
      rw [hgetd (g 0) j (by omega), hvalg j (by omega)]
    · rw [List.map_cons, List.getD_cons_zero]
      rw [hg] at hf ⊢
      dsimp only at hf ⊢
      cases hnc : nc.contains 0
      · rw [hnc] at hf
        simp [pyFalsy] at hf
      · rw [hnc] at hf
        have hs : sumInts (columns.getD 0 []) ≠ 0 := by
          simpa [pyFalsy] using hf
        rw [if_pos (show (true = true) ∧ sumInts (columns.getD 0 []) ≠ 0 from ⟨rfl, hs⟩)]
        rfl
  · rw [if_pos rfl]
    refine ⟨_, rfl, ?_, ?_, ?_⟩
    · simp [hrestlen]
    · intro i h0 hi
      obtain ⟨j, rfl⟩ : ∃ j, i = j + 1 := ⟨i - 1, by omega⟩
      rw [hgetd _ j (by omega), hvalg j (by omega)]
    · rw [List.map_cons, List.getD_cons_zero]
      rw [hg] at hf
      dsimp only at hf
      cases hnc : nc.contains 0
      · rw [if_neg (by simp)]
        rfl
      · rw [hnc] at hf
        have hs : sumInts (columns.getD 0 []) = 0 := by
          simpa [pyFalsy] using hf
        rw [if_neg (fun hcon => hcon.2 hs)]
        rfl

theorem sortRows_length (b : Bool) (rs : List (List String)) :
    (sortRows b rs).length = rs.length := by
  cases b
  · rfl
  · show (List.insertionSort rowRel rs).length = rs.length
    exact (List.perm_insertionSort rowRel rs).length_eq

/-- **C7 (amended)**: on a non-empty rectangular report with at least one
column and totals requested, exactly one synthetic totals row is appended —
the rendered table has exactly `rows + 7` lines (title, thick rule, header,
thin rule, the data rows, thin rule, totals row, thick rule).  In the
totals row every numeric column holds the arithmetic sum of that column and
every other column is blank, except that the first cell becomes the label
`TOTAL (<row count>)` when it would otherwise be *falsy* in Python's sense:
blank, or a numeric column whose sum is 0.  (A numeric first column with a
non-zero sum keeps its sum, as the unamended claim says; a zero sum is
displaced by the label.) -/
theorem create_report_totals_row (report : List (List Value)) (c2 : Nat)
    (hne : report ≠ []) (hrect : ∀ row ∈ report, row.length = c2 + 1) :
    ∃ t : List String,
      totalsRowStrings (zipCols (Value.str "") report)
        (numericColumns (zipCols (Value.str "") report)) = Except.ok t ∧
      t.length = c2 + 1 ∧
      (∀ i, 0 < i → i < c2 + 1 →
        t.getD i "" =
          (if is_all_int (report.map (fun r => r.getD i (Value.str ""))) then
            toString (sumInts (report.map (fun r => r.getD i (Value.str ""))))
          else "")) ∧
      t.getD 0 "" =
        (if is_all_int (report.map (fun r => r.getD 0 (Value.str ""))) = true ∧
            sumInts (report.map (fun r => r.getD 0 (Value.str ""))) ≠ 0 then
          toString (sumInts (report.map (fun r => r.getD 0 (Value.str ""))))
        else "TOTAL (" ++ toString report.length ++ ")") ∧
      (∀ (title : String) (col_names : List String) (is_sorted : Bool),
        ∃ lines : List String,
          create_report title report col_names is_sorted true =
            Except.ok (ReportResult.table lines) ∧
          lines.length = report.length + 7) := by
  have hcols : zipCols (Value.str "") report =
      (List.range (c2 + 1)).map (fun i => report.map (fun r => r.getD i (Value.str ""))) :=
    zipCols_rect _ _ _ hne hrect
  have hcollen : (zipCols (Value.str "") report).length = c2 + 1 := by
    rw [hcols]; simp
  have hget : ∀ i, i < c2 + 1 → (zipCols (Value.str "") report).getD i [] =
      report.map (fun r => r.getD i (Value.str "")) := by
    intro i hi
    rw [hcols]
    exact getD_range_map _ _ _ _ hi
  have hhead : (zipCols (Value.str "") report).headD [] =
      report.map (fun r => r.getD 0 (Value.str "")) := by
    rw [hcols, List.range_succ_eq_map, List.map_cons]
    rfl
  have hcontains : ∀ i, i < c2 + 1 →
      (numericColumns (zipCols (Value.str "") report)).contains i =
        is_all_int (report.map (fun r => r.getD i (Value.str ""))) := by
    intro i hi
    rw [numericColumns_contains (by rw [hcollen]; exact hi), hget i hi]
  obtain ⟨t, htot, hlen, hmid, h0⟩ :=
    totalsRowStrings_ok (zipCols (Value.str "") report)
      (numericColumns (zipCols (Value.str "") report)) c2 hcollen
  refine ⟨t, htot, hlen, ?_, ?_, ?_⟩
  · intro i hi0 hic
    rw [hmid i hi0 hic, hcontains i hic, hget i hic]
  · rw [h0, hcontains 0 (by omega), hget 0 (by omega), hhead, List.length_map]
  · intro title col_names is_sorted
    obtain ⟨r0, rrest, rfl⟩ : ∃ r0 rrest, report = r0 :: rrest := by
      cases report with
      | nil => exact absurd rfl hne
      | cons a b => exact ⟨a, b, rfl⟩
    unfold create_report
    dsimp only
    rw [htot]
    dsimp only [Except.map]
    refine ⟨_, rfl, ?_⟩
    simp only [List.length_cons, List.length_map, List.length_append, sortRows_length]
    simp [stringifyRows]

/-- **C7 counterexample**: a single numeric column whose sum is `0` does
*not* keep the sum in the totals row: Python's `if not totals_row[0]`
treats the integer `0` as falsy, so the cell is displaced by the
`TOTAL (1)` label instead of holding `"0"`, contradicting "every numeric
column holds the arithmetic sum of that column". -/
theorem create_report_totals_zero_sum_counterexample :
    is_all_int ((zipCols (Value.str "") [[Value.int 0]]).getD 0 []) = true ∧
    sumInts ((zipCols (Value.str "") [[Value.int 0]]).getD 0 []) = 0 ∧
    totalsRowStrings (zipCols (Value.str "") [[Value.int 0]])
      (numericColumns (zipCols (Value.str "") [[Value.int 0]])) =
      Except.ok ["TOTAL (1)"] ∧
    ["TOTAL (1)"] ≠ ["0"] :=
  ⟨by decide, by decide, by decide, by decide⟩

/-- Witness for the amended C7 theorem on a two-column report ("Name" text
column, "Count" numeric column with a non-zero sum). -/
theorem create_report_totals_row_witness :
    ∃ t : List String,
      totalsRowStrings
        (zipCols (Value.str "") [[Value.str "A", Value.int 2], [Value.str "B", Value.int 3]])
        (numericColumns
          (zipCols (Value.str "") [[Value.str "A", Value.int 2], [Value.str "B", Value.int 3]])) =
        Except.ok t ∧
      t.length = 1 + 1 ∧
      (∀ i, 0 < i → i < 1 + 1 →
        t.getD i "" =
          (if is_all_int ([[Value.str "A", Value.int 2], [Value.str "B", Value.int 3]].map
              (fun r => r.getD i (Value.str ""))) then
            toString (sumInts ([[Value.str "A", Value.int 2], [Value.str "B", Value.int 3]].map
              (fun r => r.getD i (Value.str ""))))
          else "")) ∧
      t.getD 0 "" =
        (if is_all_int ([[Value.str "A", Value.int 2], [Value.str "B", Value.int 3]].map
            (fun r => r.getD 0 (Value.str ""))) = true ∧
            sumInts ([[Value.str "A", Value.int 2], [Value.str "B", Value.int 3]].map
              (fun r => r.getD 0 (Value.str ""))) ≠ 0 then
          toString (sumInts ([[Value.str "A", Value.int 2], [Value.str "B", Value.int 3]].map
            (fun r => r.getD 0 (Value.str ""))))
        else "TOTAL (" ++ toString
          ([[Value.str "A", Value.int 2], [Value.str "B", Value.int 3]] :
            List (List Value)).length ++ ")") ∧
      (∀ (title : String) (col_names : List String) (is_sorted : Bool),
        ∃ lines : List String,
          create_report title [[Value.str "A", Value.int 2], [Value.str "B", Value.int 3]]
              col_names is_sorted true =
            Except.ok (ReportResult.table lines) ∧
          lines.length =
            ([[Value.str "A", Value.int 2], [Value.str "B", Value.int 3]] :
              List (List Value)).length + 7) :=
  create_report_totals_row [[Value.str "A", Value.int 2], [Value.str "B", Value.int 3]] 1
    (by decide) (by decide)

/-! ## Claim theorems: URL parsing -/

theorem firstSome_some {A B : Type} {f : A → Option B} {l : List A} {y : B}
    (h : firstSome f l = some y) : ∃ x ∈ l, f x = some y := by
  induction l with
  | nil => cases h
  | cons z zs ih =>
    simp only [firstSome] at h
    cases hfz : f z with
    | some w =>
      rw [hfz] at h
      exact ⟨z, List.mem_cons_self _ _, by rw [hfz]; exact h⟩
    | none =>
      rw [hfz] at h
      obtain ⟨x, hx, hfx⟩ := ih h
      exact ⟨x, List.mem_cons_of_mem _ hx, hfx⟩

theorem firstSome_isSome {A B : Type} {f : A → Option B} {l : List A} {x : A}
    (hx : x ∈ l) (hf : (f x).isSome = true) : (firstSome f l).isSome = true := by
  induction l with
  | nil => cases hx
  | cons z zs ih =>
    simp only [firstSome]
    cases hfz : f z with
    | some y => rfl
    | none =>
      rcases List.mem_cons.mp hx with rfl | hmem
      · rw [hfz] at hf
        cases hf
      · exact ih hmem

theorem ite_some_none_eq {A : Type} {P : Prop} [Decidable P] {x y : A}
    (h : (if P then some x else none) = some y) : P ∧ x = y := by
  by_cases hp : P
  · rw [if_pos hp] at h
    exact ⟨hp, Option.some.inj h⟩
  · rw [if_neg hp] at h
    cases h

theorem digitRun_pos_head {cs : List Char} {j : Nat} (h : 1 ≤ digitRun cs j) :
    (cs.getD j '\n').isDigit = true := by
  unfold digitRun at h
  cases hdrop : cs.drop j with
  | nil =>
    rw [hdrop] at h
    simp [List.takeWhile] at h
  | cons c t =>
    rw [hdrop] at h
    by_cases hc : c.isDigit = true
    · have hgd : cs.getD j '\n' = c := by
        rw [List.getD_eq_getElem?_getD]
        have h0 : (cs.drop j)[0]? = some c := by rw [hdrop]; simp
        rw [List.getElem?_drop] at h0
        simpa using congrArg (fun o => Option.getD o '\n') h0
      rw [hgd]
      exact hc
    · rw [List.takeWhile_cons] at h
      simp only [Bool.not_eq_true] at hc
      rw [hc] at h
      simp at h

/-- Any feasible split for the port-and-path pattern is also a feasible
split for the port-only pattern (which is tried first). -/
theorem hpCond_of_hppCond {cs : List Char} {i : Nat} (h : hppCond cs i = true) :
    hpCond cs i = true := by
  unfold hppCond at h
  unfold hpCond
  simp only [Bool.and_eq_true] at h ⊢
  obtain ⟨⟨habc, hd⟩, _⟩ := h
  exact ⟨habc, digitRun_pos_head (of_decide_eq_true hd)⟩

theorem hostPortSplit_isSome_of_path {cs : List Char}
    (h : (hostPortPathSplit cs).isSome = true) : (hostPortSplit cs).isSome = true := by
  unfold hostPortPathSplit at h
  cases hfs : firstSome (fun i => if hppCond cs i then some i else none)
      ((List.range cs.length).reverse) with
  | none =>
    rw [hfs] at h
    cases h
  | some i =>
    obtain ⟨x, hxmem, hfx⟩ := firstSome_some hfs
    obtain ⟨hcond, rfl⟩ := ite_some_none_eq hfx
    have hc1 : hpCond cs x = true := hpCond_of_hppCond hcond
    unfold hostPortSplit
    have hsome : (firstSome (fun i => if hpCond cs i then some i else none)
        ((List.range cs.length).reverse)).isSome = true :=
      firstSome_isSome hxmem (by rw [if_pos hc1]; rfl)
    cases hfs1 : firstSome (fun i => if hpCond cs i then some i else none)
        ((List.range cs.length).reverse) with
    | none =>
      rw [hfs1] at hsome
      cases hsome
    | some j => rfl

/-- Any match of the second `parse_url` pattern at `k` implies a match of
the first pattern at `k` (same protocol and `://`; the port-and-path split
point also serves the port-only split). -/
theorem p1At_isSome_of_p2At {s : List Char} {k : Nat}
    (h : (protoAt hostPortPathSplit s k).isSome = true) :
    (protoAt hostPortSplit s k).isSome = true := by
  unfold protoAt at h ⊢
  by_cases hw : wordRun s k = 0
  · rw [if_pos hw] at h
    cases h
  · rw [if_neg hw] at h ⊢
    by_cases h3 : (s.drop (k + wordRun s k)).take 3 = [':', '/', '/']
    · rw [if_pos h3] at h ⊢
      cases hsp : hostPortPathSplit (s.drop (k + wordRun s k + 3)) with
      | none =>
        rw [hsp] at h
        cases h
      | some r =>
        have h1 : (hostPortSplit (s.drop (k + wordRun s k + 3))).isSome = true :=
          hostPortSplit_isSome_of_path (by rw [hsp]; rfl)
        cases hsp1 : hostPortSplit (s.drop (k + wordRun s k + 3)) with
        | none =>
          rw [hsp1] at h1
          cases h1
        | some r1 => rfl
    · rw [if_neg h3] at h
      cases h

/-- **C10**: the mapping returned by `parse_url` never contains both a port
and a path (a `scheme://host:port/path` URL is captured by the first
pattern, which is tried first, subsumes the port-and-path pattern, and
discards the path), and the hostname key is present for every input. -/
theorem parse_url_port_path_exclusive :
    (∀ url : String,
      ¬((parse_url url).port.isSome = true ∧ (parse_url url).path.isSome = true)) ∧
    (∀ url : String, (parse_url url).hostname.isSome = true) ∧
    parse_url "t3://adminhost:7001/console" =
      { protocol := some "t3", hostname := some "adminhost", port := some "7001",
        path := none } := by
  refine ⟨?_, ?_, by decide⟩
  · intro url
    unfold parse_url
    dsimp only
    cases h1 : firstSome (protoAt hostPortSplit url.data) (List.range url.data.length) with
    | some r =>
      obtain ⟨proto, host, port⟩ := r
      simp
    | none =>
      cases h2 : firstSome (protoAt hostPortPathSplit url.data)
          (List.range url.data.length) with
      | some r =>
        exfalso
        obtain ⟨x, hx, hfx⟩ := firstSome_some h2
        have hp1 : (protoAt hostPortSplit url.data x).isSome = true :=
          p1At_isSome_of_p2At (by rw [hfx]; rfl)
        have hcontra := firstSome_isSome hx hp1
        rw [h1] at hcontra
        cases hcontra
      | none =>
        cases h3 : firstSome (protoAt hostPathSplit url.data)
            (List.range url.data.length) with
        | some r =>
          obtain ⟨proto, host, path⟩ := r
          simp
        | none => simp
  · intro url
    unfold parse_url
    dsimp only
    split <;> (try split) <;> (try split) <;> simp

